import Mathlib

/-!
Shallow embedding of the Arm Learning Paths content-checking tools:
`tools/style_check.py`, `tools/grammar_check.py`, `tools/combine_results.py`
and `tools/combined_check.py`.

Python strings are modelled as `List Char` (`Str`), so that splitting,
joining, substring search and replacement can be defined by structural
recursion and reasoned about directly.  All quantities are list lengths and
indices (`Nat`); no machine-integer overflow arises in the source.

The two third-party library calls inside the analysed code are modelled as
follows:
* the markdown→plain-text stripping of one line
  (`BeautifulSoup(markdown.markdown(line), 'html.parser').get_text()` in
  `extract_text_from_markdown`) is an abstract parameter `f : Str → Str`;
* the LanguageTool HTTP response is passed to `check_grammar` as an explicit
  list of `GrammarMatch` records (the shape of `result['matches']`); a
  network failure makes the real function return `[]` before ever touching
  a match, so the match-processing logic modelled here is exactly the loop
  body of `check_grammar`.
-/

abbrev Str := List Char

/-- Python whitespace as used by `str.strip()` and the regex class (ASCII). -/
def isPySpace (c : Char) : Bool :=
  c = ' ' || c = '\t' || c = '\n' || c = '\r' || c = '\x0b' || c = '\x0c'

/-- Python `str.strip()`: drop leading and trailing whitespace. -/
def pyStrip (s : Str) : Str :=
  ((s.dropWhile isPySpace).reverse.dropWhile isPySpace).reverse

/-- Python `content.split('\n')` (an explicit separator: the empty string
splits to `[""]`, and a trailing newline yields a final empty piece). -/
def splitNl : Str → List Str
  | [] => [[]]
  | c :: rest =>
    match splitNl rest with
    | [] => [[]]
    | h :: t => if c = '\n' then [] :: h :: t else (c :: h) :: t

/-- Python `'\n'.join(pieces)`. -/
def joinNl : List Str → Str
  | [] => []
  | [s] => s
  | s :: t :: rest => s ++ '\n' :: joinNl (t :: rest)

/-- Python `needle in hay` (substring containment; the empty needle is
contained in every string). -/
def inStr (a : Str) : Str → Bool
  | [] => a.isEmpty
  | c :: rest => a.isPrefixOf (c :: rest) || inStr a rest

/-- Python `hay.replace(a, b)` for the empty pattern: `b` is interleaved
around every character (`"ab".replace("", "-") == "-a-b-"`). -/
def replaceEmpty (b : Str) : Str → Str
  | [] => b
  | c :: rest => b ++ c :: replaceEmpty b rest

/-- Worker for `str.replace` with a non-empty pattern: scan left to right,
replacing each non-overlapping occurrence.  `skip` counts characters of a
just-matched occurrence still to be consumed. -/
def replaceGo (a b : Str) (skip : Nat) : Str → Str
  | [] => []
  | c :: rest =>
    match skip with
    | k + 1 => replaceGo a b k rest
    | 0 =>
      if a.isPrefixOf (c :: rest) then b ++ replaceGo a b (a.length - 1) rest
      else c :: replaceGo a b 0 rest

/-- Python `hay.replace(a, b)` (global replacement). -/
def pyReplace (a b s : Str) : Str :=
  if a.isEmpty then replaceEmpty b s else replaceGo a b 0 s

/-- Worker for `hay.count(a)` (non-empty `a`): number of non-overlapping
occurrences, scanning left to right exactly as `replaceGo` does. -/
def countOccGo (a : Str) (skip : Nat) : Str → Nat
  | [] => 0
  | c :: rest =>
    match skip with
    | k + 1 => countOccGo a k rest
    | 0 =>
      if a.isPrefixOf (c :: rest) then countOccGo a (a.length - 1) rest + 1
      else countOccGo a 0 rest

/-- Python `hay.count(a)` for non-empty `a`. -/
def countOcc (a s : Str) : Nat := countOccGo a 0 s

/-- `text.count('\n')`. -/
def countNl (s : Str) : Nat := s.countP (· == '\n')

/-- `is_in_code_block(lines, i)` (identical in style_check.py and
grammar_check.py): count the lines before index `i` that match `^```'
(start with three backticks) and report odd parity.  Out-of-range indices
read as the empty line; callers only pass `i < len(lines)`. -/
def is_in_code_block (lines : List Str) (i : Nat) : Bool :=
  ((List.range i).countP
    (fun j => "```".data.isPrefixOf (lines.getD j []))) % 2 == 1

/-- `is_in_yaml_frontmatter(lines, i)` (grammar_check.py): a fast path
returns true when `i == 0` and line 0 strips to `---`; otherwise the count
of lines stripping to `---` at indices below `i` decides by parity.  Note
the fall-through path never looks at line 0 specially. -/
def is_in_yaml_frontmatter (lines : List Str) (i : Nat) : Bool :=
  if i == 0 && pyStrip (lines.getD 0 []) == "---".data then true
  else
    ((List.range i).countP
      (fun j => pyStrip (lines.getD j []) == "---".data)) % 2 == 1

/-! ## Style checker (`tools/style_check.py`) -/

/-- Python regex word character `\w` (ASCII fragment). -/
def isWordChar (c : Char) : Bool := c.isAlphanum || c = '_'

/-- One entry of `STYLE_RULES`.  Every pattern of the source has the shape
`\b(w₁|…|wₙ)\b` — word-boundary-delimited literal alternatives — so a rule
is modelled as its list of alternatives (stored lowercase; matching is
case-insensitive per `re.IGNORECASE`), its literal replacement, and its
reason string. -/
structure StyleRule where
  alts : List Str
  repl : Str
  reason : Str

/-- Case-insensitive match of the lowercase literal `w` at the head of `s`,
with a regex word boundary on each side.  `prevIsWord` records whether the
character immediately before `s` in the whole line is a word character
(false at the start of the line). -/
def altMatchesHere (prevIsWord : Bool) (s : Str) (w : Str) : Bool :=
  !prevIsWord
    && (s.take w.length).map Char.toLower == w
    && (match s.drop w.length with
        | [] => true
        | c :: _ => !isWordChar c)

/-- First alternative of the pattern matching at this position (regex
alternation is first-match, left to right). -/
def firstAlt (alts : List Str) (prevIsWord : Bool) (s : Str) : Option Str :=
  alts.find? (altMatchesHere prevIsWord s)

/-- Does the rule's pattern match anywhere in the line?  This is
`re.finditer(pattern, line, re.IGNORECASE)` being non-empty. -/
def ruleMatches (alts : List Str) : Bool → Str → Bool
  | _, [] => false
  | prevIsWord, c :: rest =>
    (firstAlt alts prevIsWord (c :: rest)).isSome
      || ruleMatches alts (isWordChar c) rest

/-- `re.sub(pattern, replacement, line, flags=re.IGNORECASE)`: global,
leftmost, non-overlapping substitution.  `skip` counts characters of a
just-matched alternative still to be consumed. -/
def gsubGo (alts : List Str) (repl : Str) (prevIsWord : Bool) (skip : Nat) :
    Str → Str
  | [] => []
  | c :: rest =>
    match skip with
    | k + 1 => gsubGo alts repl prevIsWord k rest
    | 0 =>
      match firstAlt alts prevIsWord (c :: rest) with
      | some w =>
        repl ++ gsubGo alts repl (isWordChar (w.getLastD ' ')) (w.length - 1) rest
      | none => c :: gsubGo alts repl (isWordChar c) 0 rest

/-- `re.sub` of one style rule over a whole line. -/
def styleRuleApply (r : StyleRule) (line : Str) : Str :=
  gsubGo r.alts r.repl false 0 line

/-- Non-emptiness of `re.finditer` of one style rule over a line. -/
def styleRuleHit (r : StyleRule) (line : Str) : Bool :=
  ruleMatches r.alts false line

/-- The `STYLE_RULES` constant of style_check.py. -/
def STYLE_RULES : List StyleRule := [
  ⟨["utilize".data, "utilization".data, "utilizes".data, "utilizing".data],
    "use".data, "Use 'use' instead of 'utilize' for simplicity.".data⟩,
  ⟨["optimize".data, "optimization".data, "optimizes".data, "optimizing".data],
    "improve".data, "Simplify language by replacing 'optimize' with 'improve'.".data⟩,
  ⟨["in order to".data], "to".data,
    "Use 'to' instead of 'in order to' for conciseness.".data⟩,
  ⟨["please note that".data], [],
    "Remove 'please note that' for directness.".data⟩,
  ⟨["the data is processed".data, "the data was processed".data],
    "processed the data".data, "Use active voice instead of passive voice.".data⟩,
  ⟨["you should".data], [],
    "Be direct with instructions, avoid 'you should'.".data⟩]

/-- A record appended by `check_style`: the five interchange-schema fields
plus the extra `file_content` field holding the whole document. -/
structure StyleSuggestion where
  file : Str
  line : Nat
  original : Str
  suggested : Str
  reason : Str
  file_content : Str
deriving DecidableEq

/-- `check_style(content, file_path)`.  For each line and each rule in
order: if the pattern matches somewhere on the line (`finditer` non-empty),
the line is not in a code block, and the global substitution changes the
line, one suggestion is appended.  The `break` in the source exits only the
inner `for match in matches` loop, so at most one suggestion arises per
rule but the remaining rules are still evaluated on the same line. -/
def check_style (content : Str) (file_path : Str) : List StyleSuggestion :=
  let lines := splitNl content
  (List.range lines.length).flatMap (fun i =>
    let line := lines.getD i []
    STYLE_RULES.filterMap (fun rule =>
      if styleRuleHit rule line && !is_in_code_block lines i
          && !(styleRuleApply rule line == line) then
        some ⟨file_path, i + 1, line, styleRuleApply rule line, rule.reason, content⟩
      else none))

/-! ## Grammar checker (`tools/grammar_check.py`) -/

/-- `re.match(r'^#+\s', line)`: one or more `#` then a whitespace character. -/
def isHeadingLine (line : Str) : Bool :=
  match line with
  | '#' :: _ =>
    match line.dropWhile (· == '#') with
    | c :: _ => isPySpace c
    | [] => false
  | _ => false

/-- `re.match(r'^[*-]\s', line)`. -/
def isListItemLine (line : Str) : Bool :=
  match line with
  | c :: d :: _ => (c = '*' || c = '-') && isPySpace d
  | _ => false

/-- `re.match(r'^\s*```', line)`. -/
def isFenceLine (line : Str) : Bool :=
  "```".data.isPrefixOf (line.dropWhile isPySpace)

/-- `re.match(r'^\s*\[.*\]:\s*', line)`: after optional whitespace an
opening bracket, with the two-character sequence `]:` occurring later in
the line (`.*` matches greedily with backtracking, and the trailing `\s*`
always matches the empty string). -/
def isLinkRefLine (line : Str) : Bool :=
  match line.dropWhile isPySpace with
  | '[' :: rest => inStr "]:".data rest
  | _ => false

/-- The skip condition of the extraction loop in
`extract_text_from_markdown`: code blocks, YAML frontmatter, headings,
list items, fence markers, link-reference definitions and blank lines. -/
def skipLine (lines : List Str) (i : Nat) : Bool :=
  let line := lines.getD i []
  is_in_code_block lines i || is_in_yaml_frontmatter lines i
    || isHeadingLine line || isListItemLine line || isFenceLine line
    || isLinkRefLine line || (pyStrip line).isEmpty

/-- The extraction loop of `extract_text_from_markdown` after processing
the first `n` lines: accumulated `text_lines`, `line_map` (a Python dict in
insertion order, as an association list) and `current_text_line`.  The
markdown-stripping library call on one line is the abstract parameter `f`. -/
def extractAux (f : Str → Str) (lines : List Str) : Nat → List Str × List (Nat × Nat) × Nat
  | 0 => ([], [], 0)
  | n + 1 =>
    let st := extractAux f lines n
    if skipLine lines n then st
    else
      let t := f (lines.getD n [])
      if (pyStrip t).isEmpty then st
      else (st.1 ++ [t], st.2.1 ++ [(st.2.2, n)], st.2.2 + 1)

/-- `extract_text_from_markdown(content)`: the retained prose lines joined
by newlines, and the map from extracted-text line numbers to original line
numbers. -/
def extract_text_from_markdown (f : Str → Str) (content : Str) :
    Str × List (Nat × Nat) :=
  let lines := splitNl content
  let st := extractAux f lines lines.length
  (joinNl st.1, st.2.1)

/-- The `context` object of a LanguageTool match. -/
structure MatchContext where
  text : Str
  offset : Nat
  length : Nat
deriving DecidableEq

/-- One entry of `result['matches']` in the LanguageTool response, with
`replacements` flattened to the list of its `value` fields (a missing
`value` reads as the empty string, per `.get('value', '')`). -/
structure GrammarMatch where
  offset : Nat
  length : Nat
  message : Str
  context : MatchContext
  replacements : List Str
deriving DecidableEq

/-- A suggestion record of the interchange schema: exactly the five fields
`file`, `line`, `original`, `suggested`, `reason` (grammar suggestions
carry no `file_content` field). -/
structure Suggestion where
  file : Str
  line : Nat
  original : Str
  suggested : Str
  reason : Str
deriving DecidableEq

/-- `context_text[context_offset : context_offset + context_length]`
(Python slices clamp at the string's end). -/
def errorText (m : GrammarMatch) : Str :=
  (m.context.text.drop m.context.offset).take m.context.length

/-- `replacements[0].get('value', '') if replacements else ''`. -/
def suggestedText (m : GrammarMatch) : Str :=
  m.replacements.headD []

/-- The loop body of `check_grammar` for one match: locate the extracted
text line by counting newlines before the match offset, resolve it through
the line map, and emit a suggestion when the first replacement is non-empty
and the context-derived error text occurs verbatim in the resolved original
line; otherwise the match is dropped (`none`). -/
def processGrammarMatch (lines : List Str) (text : Str)
    (lineMap : List (Nat × Nat)) (file_path : Str) (m : GrammarMatch) :
    Option Suggestion :=
  let tln := countNl (text.take m.offset)
  match lineMap.lookup tln with
  | none => none
  | some md =>
    let orig := lines.getD md []
    let err := errorText m
    let sug := suggestedText m
    if !sug.isEmpty && inStr err orig then
      some ⟨file_path, md + 1, orig, pyReplace err sug orig,
        "Grammar: ".data ++ m.message⟩
    else none

/-- `check_grammar(content, file_path)` with the parsed service response
passed explicitly (the HTTP call is external; on a network error the real
function returns `[]` before reaching this logic). -/
def check_grammar (f : Str → Str) (content : Str) (file_path : Str)
    (ms : List GrammarMatch) : List Suggestion :=
  let et := extract_text_from_markdown f content
  if (pyStrip et.1).isEmpty then []
  else
    let lines := splitNl content
    ms.filterMap (processGrammarMatch lines et.1 et.2 file_path)

/-! ## Result aggregation (`tools/combine_results.py`, `tools/combined_check.py`) -/

def styleMarker : Str := "Style".data

def grammarMarker : Str := "Grammar".data

/-- The reason normalisation of `combine_results`: when the marker does not
occur in the reason, the tag is put in front (`f"Style: {reason}"`). -/
def normalizeReason (marker pre r : Str) : Str :=
  if inStr marker r then r else pre ++ r

/-- Reason normalisation of one record from the style collection. -/
def normStyleSugg (s : Suggestion) : Suggestion :=
  { s with reason := normalizeReason styleMarker "Style: ".data s.reason }

/-- Reason normalisation of one record from the grammar collection. -/
def normGrammarSugg (s : Suggestion) : Suggestion :=
  { s with reason := normalizeReason grammarMarker "Grammar: ".data s.reason }

/-- Stable insertion into a list sorted by the strict comparison `lt`. -/
def insertS (lt : α → α → Bool) (x : α) : List α → List α
  | [] => [x]
  | y :: ys => if lt y x then y :: insertS lt x ys else x :: y :: ys

/-- Stable sort by `lt`.  Python's `list.sort` is documented stable, and a
stable sort by a given key is unique, so insertion sort models it
faithfully. -/
def sortS (lt : α → α → Bool) (l : List α) : List α := l.foldr (insertS lt) []

/-- The `key=lambda x: x.get("line", 0)` comparison of combine_results.py. -/
def lineLt (a b : Suggestion) : Bool := decide (a.line < b.line)

/-- Python string `<` (lexicographic by code point). -/
def strLt : Str → Str → Bool
  | [], [] => false
  | [], _ :: _ => true
  | _ :: _, [] => false
  | c :: cs, d :: ds => if c = d then strLt cs ds else decide (c < d)

/-- The `key=lambda x: (x["file"], x["line"])` tuple comparison of
combined_check.py. -/
def fileLineLt (a b : Suggestion) : Bool :=
  strLt a.file b.file || (a.file == b.file && decide (a.line < b.line))

/-- Pure core of `combine_results` (combine_results.py): tag reasons of
each collection, concatenate style-first, stable-sort by line number.
Record fields beyond the interchange schema are passed through untouched by
the source (it manipulates dicts), so records are modelled at the schema. -/
def combine_results (style grammar : List Suggestion) : List Suggestion :=
  sortS lineLt (style.map normStyleSugg ++ grammar.map normGrammarSugg)

/-- `combine_suggestions` (combined_check.py): concatenate style-first,
stable-sort by the `(file, line)` pair; no reason normalisation. -/
def combine_suggestions (style grammar : List Suggestion) : List Suggestion :=
  sortS fileLineLt (style ++ grammar)

/-- Fate of one input file of combine_results.py: absent on disk, present
but not readable as interchange JSON, or parsed to a suggestion list. -/
inductive LoadResult where
  | missing
  | malformed
  | ok (suggs : List Suggestion)
deriving DecidableEq

/-- What the load step leaves in `style_suggestions`/`grammar_suggestions`:
missing and malformed files both yield the empty list (warning/error is
printed, not raised). -/
def rawLoad : LoadResult → List Suggestion
  | .missing => []
  | .malformed => []
  | .ok l => l

/-- The return value of `combine_results(style_file, grammar_file,
output_file)`: the combined count, or 0 when writing the output file throws
(the exception is caught and `return 0` executes). -/
def combine_results_run (st gr : LoadResult) (writeOk : Bool) : Nat :=
  let combined := combine_results (rawLoad st) (rawLoad gr)
  if writeOk then combined.length else 0

/-- The `sys.exit` status of combine_results.py's `__main__` block:
`0 if total_suggestions > 0 or (not exists(style) and not exists(grammar))
else 1`. -/
def combine_results_exit (st gr : LoadResult) (writeOk : Bool) : Nat :=
  if combine_results_run st gr writeOk > 0
      || (st == .missing && gr == .missing) then 0 else 1

/-- A concrete markdown stripper used to instantiate the abstract stripping
parameter on closed inputs: it deletes newline characters (the real
library's output for a single input line contains none). -/
def dropNl (s : Str) : Str := s.filter (· != '\n')

/-! ## Helper lemmas: replacement and occurrence counting -/

theorem replaceGo_skip_eq (a b : Str) :
    ∀ (s : Str) (k : Nat), replaceGo a b k s = replaceGo a b 0 (s.drop k) := by
  intro s
  induction s with
  | nil => intro k; simp [replaceGo]
  | cons c rest ih =>
    intro k
    cases k with
    | zero => simp
    | succ k => simp [replaceGo, ih k]

theorem countOccGo_skip_eq (a : Str) :
    ∀ (s : Str) (k : Nat), countOccGo a k s = countOccGo a 0 (s.drop k) := by
  intro s
  induction s with
  | nil => intro k; simp [countOccGo]
  | cons c rest ih =>
    intro k
    cases k with
    | zero => simp
    | succ k => simp [countOccGo, ih k]

theorem replaceGo_cons_pos (a b : Str) (c : Char) (rest : Str)
    (hp : a.isPrefixOf (c :: rest) = true) :
    replaceGo a b 0 (c :: rest) = b ++ replaceGo a b 0 (rest.drop (a.length - 1)) := by
  simp [replaceGo, hp, replaceGo_skip_eq]

theorem replaceGo_cons_neg (a b : Str) (c : Char) (rest : Str)
    (hp : a.isPrefixOf (c :: rest) = false) :
    replaceGo a b 0 (c :: rest) = c :: replaceGo a b 0 rest := by
  simp [replaceGo, hp]

theorem countOcc_cons_pos (a : Str) (c : Char) (rest : Str)
    (hp : a.isPrefixOf (c :: rest) = true) :
    countOcc a (c :: rest) = countOcc a (rest.drop (a.length - 1)) + 1 := by
  simp [countOcc, countOccGo, hp, countOccGo_skip_eq]

theorem countOcc_cons_neg (a : Str) (c : Char) (rest : Str)
    (hp : a.isPrefixOf (c :: rest) = false) :
    countOcc a (c :: rest) = countOcc a rest := by
  simp [countOcc, countOccGo, hp]

theorem inStr_nil (a : Str) : inStr a [] = a.isEmpty := rfl

theorem inStr_cons (a : Str) (c : Char) (rest : Str) :
    inStr a (c :: rest) = (a.isPrefixOf (c :: rest) || inStr a rest) := rfl

theorem countOcc_pos_of_inStr (a : Str) (ha : a ≠ []) :
    ∀ s, inStr a s = true → 0 < countOcc a s := by
  have H : ∀ (n : Nat) (s : Str), s.length ≤ n → inStr a s = true →
      0 < countOcc a s := by
    intro n
    induction n with
    | zero =>
      intro s hs hin
      have hsnil : s = [] := List.eq_nil_of_length_eq_zero (Nat.le_zero.mp hs)
      subst hsnil
      rw [inStr_nil] at hin
      exact absurd (List.isEmpty_iff.mp hin) ha
    | succ n ih =>
      intro s hs hin
      match s with
      | [] =>
        rw [inStr_nil] at hin
        exact absurd (List.isEmpty_iff.mp hin) ha
      | c :: rest =>
        by_cases hp : a.isPrefixOf (c :: rest)
        · rw [countOcc_cons_pos a c rest hp]
          omega
        · have hp' : a.isPrefixOf (c :: rest) = false := by
            simp only [Bool.not_eq_true] at hp; exact hp
          rw [countOcc_cons_neg a c rest hp']
          have hrest : rest.length ≤ n := by
            simp at hs; omega
          apply ih rest hrest
          rw [inStr_cons, hp'] at hin
          simpa using hin
  exact fun s => H s.length s le_rfl

theorem isPref_exists : ∀ (a s : Str), a.isPrefixOf s = true → ∃ t, s = a ++ t := by
  intro a
  induction a with
  | nil => intro s _; exact ⟨s, rfl⟩
  | cons c cs ih =>
    intro s hp
    cases s with
    | nil => simp [List.isPrefixOf] at hp
    | cons d ds =>
      simp only [List.isPrefixOf, Bool.and_eq_true, beq_iff_eq] at hp
      obtain ⟨t, ht⟩ := ih ds hp.2
      exact ⟨t, by rw [hp.1, ht]; simp⟩

theorem replaceEmpty_length (b : Str) :
    ∀ s : Str, (replaceEmpty b s).length = s.length + (s.length + 1) * b.length := by
  intro s
  induction s with
  | nil => simp [replaceEmpty]
  | cons c rest ih => simp [replaceEmpty, ih]; ring

theorem replaceGo_length (a b : Str) (ha : a ≠ []) :
    ∀ s : Str, (replaceGo a b 0 s).length + countOcc a s * a.length
      = s.length + countOcc a s * b.length := by
  have ha1 : 1 ≤ a.length := by
    cases a with
    | nil => exact absurd rfl ha
    | cons x xs => simp
  have H : ∀ (n : Nat) (s : Str), s.length ≤ n →
      (replaceGo a b 0 s).length + countOcc a s * a.length
        = s.length + countOcc a s * b.length := by
    intro n
    induction n with
    | zero =>
      intro s hs
      have hsnil : s = [] := List.eq_nil_of_length_eq_zero (Nat.le_zero.mp hs)
      subst hsnil
      simp [replaceGo, countOcc, countOccGo]
    | succ n ih =>
      intro s hs
      match s with
      | [] => simp [replaceGo, countOcc, countOccGo]
      | c :: rest =>
        by_cases hp : a.isPrefixOf (c :: rest)
        · have hle : a.length ≤ rest.length + 1 := by
            obtain ⟨t, ht⟩ := isPref_exists a (c :: rest) hp
            have := congrArg List.length ht
            simp at this
            omega
          have hdl : (rest.drop (a.length - 1)).length ≤ n := by
            simp at hs ⊢; omega
          have ih' := ih (rest.drop (a.length - 1)) hdl
          rw [replaceGo_cons_pos a b c rest hp, countOcc_cons_pos a c rest hp]
          rw [Nat.succ_mul, Nat.succ_mul]
          simp [List.length_append, List.length_drop] at ih' ⊢
          generalize countOcc a (rest.drop (a.length - 1)) * a.length = P at ih' ⊢
          generalize countOcc a (rest.drop (a.length - 1)) * b.length = Q at ih' ⊢
          omega
        · have hp' : a.isPrefixOf (c :: rest) = false := by simp only [Bool.not_eq_true] at hp; exact hp
          have hrest : rest.length ≤ n := by simp at hs; omega
          have ih' := ih rest hrest
          rw [replaceGo_cons_neg a b c rest hp', countOcc_cons_neg a c rest hp']
          simp only [List.length_cons]
          omega
  exact fun s => H s.length s le_rfl

theorem replaceGo_ne_of_length_eq (a b : Str) (ha : a ≠ []) (hab : a ≠ b)
    (hl : a.length = b.length) :
    ∀ s : Str, inStr a s = true → replaceGo a b 0 s ≠ s := by
  have H : ∀ (n : Nat) (s : Str), s.length ≤ n → inStr a s = true →
      replaceGo a b 0 s ≠ s := by
    intro n
    induction n with
    | zero =>
      intro s hs hin
      have hsnil : s = [] := List.eq_nil_of_length_eq_zero (Nat.le_zero.mp hs)
      subst hsnil
      rw [inStr_nil] at hin
      exact absurd (List.isEmpty_iff.mp hin) ha
    | succ n ih =>
      intro s hs hin
      match s with
      | [] =>
        rw [inStr_nil] at hin
        exact absurd (List.isEmpty_iff.mp hin) ha
      | c :: rest =>
        by_cases hp : a.isPrefixOf (c :: rest)
        · rw [replaceGo_cons_pos a b c rest hp]
          intro he
          obtain ⟨t, ht⟩ := isPref_exists a (c :: rest) hp
          rw [ht] at he
          have := (List.append_inj he (hl.symm)).1
          exact hab (this.symm)
        · have hp' : a.isPrefixOf (c :: rest) = false := by simp only [Bool.not_eq_true] at hp; exact hp
          rw [replaceGo_cons_neg a b c rest hp']
          intro he
          have hrest : rest.length ≤ n := by simp at hs; omega
          have htl : replaceGo a b 0 rest = rest := (List.cons.injEq _ _ _ _ ▸ he).2
          rw [inStr_cons, hp'] at hin
          exact ih rest hrest (by simpa using hin) htl
  exact fun s => H s.length s le_rfl

/-- A non-trivial global replacement changes the string: if the pattern
differs from the replacement and occurs in the string, `str.replace` does
not return the input unchanged. -/
theorem pyReplace_ne (a b s : Str) (hab : a ≠ b) (hin : inStr a s = true) :
    pyReplace a b s ≠ s := by
  by_cases ha : a = []
  · subst ha
    have hb : 1 ≤ b.length := by
      cases b with
      | nil => exact absurd rfl hab
      | cons x xs => simp
    rw [pyReplace]
    simp only [List.isEmpty_nil, if_true]
    intro he
    have := replaceEmpty_length b s
    rw [he] at this
    nlinarith
  · have hane : a.isEmpty = false := by
      cases a with
      | nil => exact absurd rfl ha
      | cons x xs => simp
    rw [pyReplace, hane]
    simp only [Bool.false_eq_true, if_false]
    by_cases hl : a.length = b.length
    · exact replaceGo_ne_of_length_eq a b ha hab hl s hin
    · intro he
      have h1 := replaceGo_length a b ha s
      rw [he] at h1
      have h2 := countOcc_pos_of_inStr a ha s hin
      have h3 : countOcc a s * a.length = countOcc a s * b.length := by omega
      exact hl (Nat.eq_of_mul_eq_mul_left h2 h3)

/-! ## Helper lemmas: stable insertion sort -/

theorem insertS_filter_pos (lt : α → α → Bool) (p : α → Bool) (x : α)
    (hx : p x = true) (h : ∀ y, p y = true → lt y x = false) :
    ∀ l, (insertS lt x l).filter p = x :: l.filter p := by
  intro l
  induction l with
  | nil => simp [insertS, hx]
  | cons y ys ih =>
    by_cases hy : lt y x
    · have hpy : p y = false := by
        cases hpy : p y with
        | false => rfl
        | true => rw [h y hpy] at hy; exact absurd hy (by simp)
      simp [insertS, hy, List.filter_cons, hpy, ih]
    · simp [insertS, hy, List.filter_cons, hx]

theorem insertS_filter_neg (lt : α → α → Bool) (p : α → Bool) (x : α)
    (hx : p x = false) :
    ∀ l, (insertS lt x l).filter p = l.filter p := by
  intro l
  induction l with
  | nil => simp [insertS, hx]
  | cons y ys ih =>
    by_cases hy : lt y x
    · simp [insertS, hy, List.filter_cons, ih]
    · simp [insertS, hy, List.filter_cons, hx]

/-- Stability of the insertion sort: the elements satisfying any predicate
compatible with the comparison (no strict descent between two selected
elements) appear in the output exactly as in the input. -/
theorem sortS_filter (lt : α → α → Bool) (p : α → Bool)
    (h : ∀ x y, p x = true → p y = true → lt y x = false) :
    ∀ l, (sortS lt l).filter p = l.filter p := by
  intro l
  induction l with
  | nil => simp [sortS]
  | cons x xs ih =>
    have hx : sortS lt (x :: xs) = insertS lt x (sortS lt xs) := rfl
    rw [hx]
    cases hpx : p x with
    | true =>
      rw [insertS_filter_pos lt p x hpx (fun y hy => h x y hpx hy), ih]
      simp [List.filter_cons, hpx]
    | false =>
      rw [insertS_filter_neg lt p x hpx, ih]
      simp [List.filter_cons, hpx]

theorem insertS_chain (lt : α → α → Bool)
    (hasym : ∀ a b, lt a b = true → lt b a = false) (x : α) :
    ∀ l, List.Chain' (fun a b => lt b a = false) l →
      List.Chain' (fun a b => lt b a = false) (insertS lt x l) := by
  intro l
  induction l with
  | nil => intro _; simp [insertS]
  | cons y ys ih =>
    intro hch
    by_cases hy : lt y x
    · have hch' := List.Chain'.tail hch
      have hins := ih hch'
      have hhead : ∀ z ∈ (insertS lt x ys).head?, lt z y = false := by
        intro z hz
        cases ys with
        | nil =>
          simp [insertS] at hz
          subst hz
          exact hasym y x hy
        | cons w ws =>
          by_cases hw : lt w x
          · simp [insertS, hw] at hz
            subst hz
            have := List.chain'_cons.mp hch
            exact this.1
          · simp [insertS, hw] at hz
            subst hz
            exact hasym y x hy
      simp only [insertS, hy, if_true]
      exact List.chain'_cons'.mpr ⟨hhead, hins⟩
    · have hy' : lt y x = false := by simp only [Bool.not_eq_true] at hy; exact hy
      simp only [insertS, hy, if_false]
      exact List.chain'_cons.mpr ⟨hy', hch⟩

/-- The insertion sort produces a list sorted by the comparison: no
adjacent pair strictly descends. -/
theorem sortS_chain (lt : α → α → Bool)
    (hasym : ∀ a b, lt a b = true → lt b a = false) :
    ∀ l, List.Chain' (fun a b => lt b a = false) (sortS lt l) := by
  intro l
  induction l with
  | nil => simp [sortS]
  | cons x xs ih => exact insertS_chain lt hasym x (sortS lt xs) ih

theorem strLt_irrefl : ∀ s : Str, strLt s s = false := by
  intro s
  induction s with
  | nil => rfl
  | cons c cs ih => simp [strLt, ih]

theorem strLt_asymm : ∀ a b : Str, strLt a b = true → strLt b a = false := by
  intro a
  induction a with
  | nil =>
    intro b hab
    cases b with
    | nil => exact absurd hab (by simp [strLt])
    | cons d ds => rfl
  | cons c cs ih =>
    intro b hab
    cases b with
    | nil => exact absurd hab (by simp [strLt])
    | cons d ds =>
      by_cases hcd : c = d
      · subst hcd
        simp [strLt] at hab ⊢
        exact ih ds hab
      · have hdc : ¬ d = c := fun h => hcd h.symm
        simp [strLt, hcd] at hab
        simp [strLt, hdc]
        exact le_of_lt hab

theorem lineLt_asymm : ∀ a b : Suggestion, lineLt a b = true → lineLt b a = false := by
  intro a b h
  simp [lineLt] at h ⊢
  omega

theorem fileLineLt_irrefl : ∀ a : Suggestion, fileLineLt a a = false := by
  intro a
  simp [fileLineLt, strLt_irrefl]

theorem fileLineLt_asymm :
    ∀ a b : Suggestion, fileLineLt a b = true → fileLineLt b a = false := by
  intro a b h
  simp [fileLineLt] at h ⊢
  rcases h with h | ⟨heq, hlt⟩
  · constructor
    · exact strLt_asymm _ _ h
    · intro heq
      rw [heq] at h
      rw [strLt_irrefl] at h
      exact absurd h (by simp)
  · rw [heq]
    constructor
    · exact strLt_irrefl _
    · intro _; omega

/-! ## Helper lemmas: splitting and joining lines -/

theorem splitNl_ne_nil : ∀ s : Str, splitNl s ≠ [] := by
  intro s
  cases s with
  | nil => simp [splitNl]
  | cons c rest =>
    simp only [splitNl]
    cases h : splitNl rest with
    | nil => simp
    | cons h t =>
      by_cases hc : c = '\n' <;> simp [hc]

theorem splitNl_no_newline (s : Str) (h : '\n' ∉ s) : splitNl s = [s] := by
  induction s with
  | nil => rfl
  | cons c rest ih =>
    have hc : ¬ c = '\n' := fun he => h (he ▸ List.mem_cons_self c rest)
    have hr : '\n' ∉ rest := fun hm => h (List.mem_cons_of_mem c hm)
    simp [splitNl, ih hr, hc]

theorem splitNl_append_newline (t u : Str) (h : '\n' ∉ t) :
    splitNl (t ++ '\n' :: u) = t :: splitNl u := by
  induction t with
  | nil =>
    simp only [List.nil_append, splitNl]
    cases hu : splitNl u with
    | nil => exact absurd hu (splitNl_ne_nil u)
    | cons x xs => simp
  | cons c t' ih =>
    have hc : ¬ c = '\n' := fun he => h (he ▸ List.mem_cons_self c t')
    have ht' : '\n' ∉ t' := fun hm => h (List.mem_cons_of_mem c hm)
    simp only [List.cons_append, splitNl, List.append_eq]
    rw [ih ht']
    simp [hc]

theorem splitNl_joinNl :
    ∀ l : List Str, l ≠ [] → (∀ t ∈ l, '\n' ∉ t) → splitNl (joinNl l) = l := by
  intro l
  induction l with
  | nil => intro h _; exact absurd rfl h
  | cons s rest ih =>
    intro _ hall
    cases rest with
    | nil =>
      have : joinNl [s] = s := rfl
      rw [this]
      exact splitNl_no_newline s (hall s (List.mem_cons_self s []))
    | cons t rest' =>
      have hjoin : joinNl (s :: t :: rest') = s ++ '\n' :: joinNl (t :: rest') := rfl
      rw [hjoin, splitNl_append_newline s _ (hall s (by simp))]
      rw [ih (by simp) (fun x hx => hall x (List.mem_cons_of_mem s hx))]

/-! ## Helper lemmas: the extraction invariant -/

theorem pyStrip_nonempty (t : Str) (h : (pyStrip t).isEmpty = false) :
    t.isEmpty = false := by
  cases t with
  | nil => simp [pyStrip] at h
  | cons c rest => simp

/-- Invariant of the extraction loop: the text-line counter equals the
number of retained lines, the map keys are exactly `0, …, k-1` in order,
the map values are strictly increasing and below the number of processed
lines, and every retained line has non-blank stripped text with no newline
character (provided the stripper emits none). -/
theorem extractAux_inv (f : Str → Str) (lines : List Str)
    (hf : ∀ s, '\n' ∉ f s) (n : Nat) :
    (extractAux f lines n).2.2 = (extractAux f lines n).1.length
    ∧ (extractAux f lines n).2.1.map Prod.fst
        = List.range (extractAux f lines n).1.length
    ∧ List.Chain' (· < ·) ((extractAux f lines n).2.1.map Prod.snd)
    ∧ (∀ v ∈ (extractAux f lines n).2.1.map Prod.snd, v < n)
    ∧ (∀ t ∈ (extractAux f lines n).1, (pyStrip t).isEmpty = false ∧ '\n' ∉ t) := by
  induction n with
  | zero => simp [extractAux]
  | succ n ih =>
    obtain ⟨ih1, ih2, ih3, ih4, ih5⟩ := ih
    by_cases hskip : skipLine lines n
    · have hstep : extractAux f lines (n + 1) = extractAux f lines n := by
        simp [extractAux, hskip]
      rw [hstep]
      exact ⟨ih1, ih2, ih3, fun v hv => Nat.lt_succ_of_lt (ih4 v hv), ih5⟩
    · by_cases hblank : (pyStrip (f (lines.getD n []))).isEmpty
      · have hstep : extractAux f lines (n + 1) = extractAux f lines n := by
          simp only [extractAux]
          rw [if_neg hskip, if_pos hblank]
        rw [hstep]
        exact ⟨ih1, ih2, ih3, fun v hv => Nat.lt_succ_of_lt (ih4 v hv), ih5⟩
      · have hblank' : (pyStrip (f (lines.getD n []))).isEmpty = false := by
          simp only [Bool.not_eq_true] at hblank; exact hblank
        have hstep : extractAux f lines (n + 1)
            = ((extractAux f lines n).1 ++ [f (lines.getD n [])],
               (extractAux f lines n).2.1
                 ++ [((extractAux f lines n).2.2, n)],
               (extractAux f lines n).2.2 + 1) := by
          simp only [extractAux]
          rw [if_neg hskip, if_neg hblank]
        rw [hstep]
        refine ⟨by simp [ih1], ?_, ?_, ?_, ?_⟩
        · simp only [List.map_append, List.map_cons, List.map_nil,
            List.length_append, List.length_cons, List.length_nil]
          rw [ih2, ih1, List.range_succ]
        · simp only [List.map_append, List.map_cons, List.map_nil]
          rw [List.chain'_append]
          refine ⟨ih3, List.chain'_singleton n, ?_⟩
          intro x hx y hy
          simp only [List.head?_cons, Option.mem_def, Option.some.injEq] at hy
          subst hy
          have hmem : x ∈ (extractAux f lines n).2.1.map Prod.snd :=
            List.mem_of_mem_getLast? hx
          exact ih4 x hmem
        · intro v hv
          simp only [List.map_append, List.map_cons, List.map_nil,
            List.mem_append, List.mem_singleton] at hv
          rcases hv with hv | hv
          · exact Nat.lt_succ_of_lt (ih4 v hv)
          · rw [hv]; exact Nat.lt_succ_self n
        · intro t ht
          rcases List.mem_append.mp ht with ht | ht
          · exact ih5 t ht
          · have : t = f (lines.getD n []) := by simpa using ht
            subst this
            exact ⟨hblank', hf _⟩

/-! ## Helper lemmas: prefix counting and marker containment -/

theorem countP_range_take (p : Str → Bool) (lines : List Str) :
    ∀ i, i ≤ lines.length →
      (List.range i).countP (fun j => p (lines.getD j []))
        = (lines.take i).countP p := by
  intro i
  induction i with
  | zero => intro _; simp
  | succ i ih =>
    intro hi
    have hi' : i ≤ lines.length := Nat.le_of_succ_le hi
    have hilt : i < lines.length := hi
    rw [List.range_succ, List.countP_append, ih hi']
    have htake : lines.take (i + 1) = lines.take i ++ [lines.get ⟨i, hilt⟩] := by
      rw [List.take_succ]
      congr 1
      rw [List.getElem?_eq_getElem hilt]
      simp
    rw [htake, List.countP_append]
    congr 1
    have hgd : lines[i]?.getD [] = lines[i] := by
      rw [List.getElem?_eq_getElem hilt]
      rfl
    simp only [List.countP_cons, List.countP_nil, List.getD_eq_getElem?_getD, hgd,
      List.get_eq_getElem]

theorem inStr_of_isPrefixOf (a s : Str) (h : a.isPrefixOf s = true) :
    inStr a s = true := by
  cases s with
  | nil =>
    rw [inStr_nil]
    cases a with
    | nil => rfl
    | cons c cs => simp [List.isPrefixOf] at h
  | cons c rest => rw [inStr_cons, h]; rfl

theorem isPrefixOf_append_self (a r : Str) : a.isPrefixOf (a ++ r) = true := by
  induction a with
  | nil => simp [List.isPrefixOf]
  | cons c cs ih => simp [List.isPrefixOf, ih]

theorem inStr_style_tag (r : Str) :
    inStr styleMarker ("Style: ".data ++ r) = true := by
  have h : "Style: ".data = styleMarker ++ ": ".data := by decide
  rw [h, List.append_assoc]
  exact inStr_of_isPrefixOf _ _ (isPrefixOf_append_self _ _)

theorem inStr_grammar_tag (r : Str) :
    inStr grammarMarker ("Grammar: ".data ++ r) = true := by
  have h : "Grammar: ".data = grammarMarker ++ ": ".data := by decide
  rw [h, List.append_assoc]
  exact inStr_of_isPrefixOf _ _ (isPrefixOf_append_self _ _)

/-! ## Claim theorems -/

/-- C1: the claim (and the source's own comment "Only one suggestion per
line to avoid conflicts") says `check_style` stops evaluating rules after
the first one whose global substitution changes a line, so at most one
style suggestion is emitted per line.  The `break` in the source exits only
the inner `for match in matches` loop, so later rules are still evaluated
on the same line: on the single-line document
`utilize this in order to win`, rule 1 (utilize→use) and rule 3
(in order to→to) both fire and two suggestions are emitted for line 1. -/
theorem c1_two_style_suggestions_on_one_line :
    (check_style "utilize this in order to win".data "file.md".data).map
        (fun s => (s.line, s.suggested))
      = [(1, "use this in order to win".data), (1, "utilize this to win".data)] := by
  decide

/-- C2 counterexample: with lines `["x", "---", "y"]`, line 0 is not `---`,
yet `is_in_yaml_frontmatter` at index 2 returns true (one marker line lies
below index 2), contradicting the claim's "returns false whenever line 0 is
not `---`". -/
theorem c2_counterexample :
    is_in_yaml_frontmatter ["x".data, "---".data, "y".data] 2 = true
    ∧ pyStrip ((["x".data, "---".data, "y".data] : List Str).getD 0 []) ≠ "---".data := by
  decide

/-- C2 (amended): for `i < lines.length`, `is_in_yaml_frontmatter lines i`
returns true iff `i = 0` and line 0 strips to `---`, or the number of lines
stripping to `---` at indices strictly below `i` is odd.  The original
claim's additional requirement that line 0 be `---` in the parity case is
not checked by the code (it only enters the fast path when `i == 0`). -/
theorem c2_frontmatter_characterization (lines : List Str) (i : Nat)
    (hi : i < lines.length) :
    is_in_yaml_frontmatter lines i = true
      ↔ ((i = 0 ∧ pyStrip (lines.getD 0 []) = "---".data)
          ∨ Odd ((lines.take i).countP (fun l => pyStrip l == "---".data))) := by
  rw [is_in_yaml_frontmatter,
    ← countP_range_take (fun l => pyStrip l == "---".data) lines i (le_of_lt hi)]
  by_cases h0 : i = 0
  · subst h0
    simp only [List.range_zero, List.countP_nil]
    by_cases hm : pyStrip (lines.getD 0 []) = "---".data
    · simp [hm, Nat.odd_iff]
    · simp [beq_iff_eq, hm, Nat.odd_iff]
  · simp [beq_iff_eq, h0, Nat.odd_iff]

/-- C2 witness: the amended characterization evaluated inside the
frontmatter of a document whose first line is the `---` marker. -/
theorem c2_witness :
    1 < (["---".data, "t".data, "---".data, "x".data] : List Str).length
    ∧ (is_in_yaml_frontmatter ["---".data, "t".data, "---".data, "x".data] 1 = true
        ↔ ((1 = 0 ∧ pyStrip ((["---".data, "t".data, "---".data, "x".data] : List Str).getD 0 [])
              = "---".data)
            ∨ Odd (((["---".data, "t".data, "---".data, "x".data] : List Str).take 1).countP
                (fun l => pyStrip l == "---".data)))) :=
  ⟨by decide, c2_frontmatter_characterization _ 1 (by decide)⟩

/-- C7: the reason-prefix normalisation of `combine_results` is idempotent
on every suggestion record: a reason already containing the appropriate
marker is left unchanged, otherwise the marker is prefixed exactly once,
and applying the normalisation twice equals applying it once. -/
theorem c7_reason_normalization_idempotent (s : Suggestion) :
    (inStr styleMarker s.reason = true → normStyleSugg s = s)
    ∧ (inStr styleMarker s.reason = false →
        normStyleSugg s = { s with reason := "Style: ".data ++ s.reason })
    ∧ normStyleSugg (normStyleSugg s) = normStyleSugg s
    ∧ (inStr grammarMarker s.reason = true → normGrammarSugg s = s)
    ∧ (inStr grammarMarker s.reason = false →
        normGrammarSugg s = { s with reason := "Grammar: ".data ++ s.reason })
    ∧ normGrammarSugg (normGrammarSugg s) = normGrammarSugg s := by
  refine ⟨?_, ?_, ?_, ?_, ?_, ?_⟩
  · intro h
    simp [normStyleSugg, normalizeReason, h]
  · intro h
    simp [normStyleSugg, normalizeReason, h]
  · by_cases h : inStr styleMarker s.reason = true
    · simp [normStyleSugg, normalizeReason, h]
    · have h' : inStr styleMarker s.reason = false := by
        simp only [Bool.not_eq_true] at h; exact h
      have h1 : normStyleSugg s = { s with reason := "Style: ".data ++ s.reason } := by
        simp [normStyleSugg, normalizeReason, h']
      rw [h1]
      have htag : inStr styleMarker
          ('S' :: 't' :: 'y' :: 'l' :: 'e' :: ':' :: ' ' :: s.reason) = true :=
        inStr_style_tag s.reason
      simp [normStyleSugg, normalizeReason, htag]
  · intro h
    simp [normGrammarSugg, normalizeReason, h]
  · intro h
    simp [normGrammarSugg, normalizeReason, h]
  · by_cases h : inStr grammarMarker s.reason = true
    · simp [normGrammarSugg, normalizeReason, h]
    · have h' : inStr grammarMarker s.reason = false := by
        simp only [Bool.not_eq_true] at h; exact h
      have h1 : normGrammarSugg s = { s with reason := "Grammar: ".data ++ s.reason } := by
        simp [normGrammarSugg, normalizeReason, h']
      rw [h1]
      have htag : inStr grammarMarker
          ('G' :: 'r' :: 'a' :: 'm' :: 'm' :: 'a' :: 'r' :: ':' :: ' ' :: s.reason) = true :=
        inStr_grammar_tag s.reason
      simp [normGrammarSugg, normalizeReason, htag]

/-- C7 witness: the normalisation applied to a concrete record whose
reason lacks the marker. -/
theorem c7_witness :
    inStr styleMarker "x".data = false
    ∧ normStyleSugg ⟨[], 0, [], [], "x".data⟩
        = { (⟨[], 0, [], [], "x".data⟩ : Suggestion) with reason := "Style: ".data ++ "x".data }
    ∧ normStyleSugg (normStyleSugg ⟨[], 0, [], [], "x".data⟩)
        = normStyleSugg ⟨[], 0, [], [], "x".data⟩ :=
  ⟨by decide,
   (c7_reason_normalization_idempotent ⟨[], 0, [], [], "x".data⟩).2.1 (by decide),
   (c7_reason_normalization_idempotent ⟨[], 0, [], [], "x".data⟩).2.2.1⟩

/-- C3: for every document and every newline-free line stripper, the line
map produced by `extract_text_from_markdown` has strictly increasing
original-line values, its keys are the dense range `0, …, k-1` in order,
and its number of entries equals the number of non-empty lines of the
returned extracted text.  (The real stripper is the external markdown +
BeautifulSoup pipeline, whose output for a single input line contains no
newline; that is the `hf` hypothesis.) -/
theorem c3_extraction_index_invariants (f : Str → Str) (content : Str)
    (hf : ∀ s, '\n' ∉ f s) :
    List.Chain' (· < ·)
        ((extract_text_from_markdown f content).2.map Prod.snd)
    ∧ (extract_text_from_markdown f content).2.map Prod.fst
        = List.range (extract_text_from_markdown f content).2.length
    ∧ (extract_text_from_markdown f content).2.length
        = ((splitNl (extract_text_from_markdown f content).1).filter
            (fun l => !l.isEmpty)).length := by
  obtain ⟨h1, h2, h3, h4, h5⟩ :=
    extractAux_inv f (splitNl content) hf (splitNl content).length
  set st := extractAux f (splitNl content) (splitNl content).length with hst
  have hext : extract_text_from_markdown f content = (joinNl st.1, st.2.1) := rfl
  rw [hext]
  have hlen : st.2.1.length = st.1.length := by
    have := congrArg List.length h2
    simpa using this
  refine ⟨h3, ?_, ?_⟩
  · rw [hlen]
    exact h2
  · cases htl : st.1 with
    | nil =>
      have hmapnil : st.2.1.map Prod.fst = [] := by
        rw [h2, htl]
        simp
      have hnil : st.2.1 = [] := List.map_eq_nil_iff.mp hmapnil
      rw [hnil]
      simp [joinNl, splitNl]
    | cons t rest =>
      rw [htl] at h5 hlen
      show st.2.1.length
        = ((splitNl (joinNl (t :: rest))).filter (fun l => !l.isEmpty)).length
      have hnl : ∀ x ∈ (t :: rest), '\n' ∉ x := fun x hx => (h5 x hx).2
      have hsplit : splitNl (joinNl (t :: rest)) = t :: rest :=
        splitNl_joinNl (t :: rest) (by simp) hnl
      rw [hsplit]
      have hfilter : (t :: rest).filter (fun l => !l.isEmpty) = t :: rest := by
        apply List.filter_eq_self.mpr
        intro a ha
        have := pyStrip_nonempty a (h5 a ha).1
        simp [this]
      rw [hfilter, hlen]

/-- C3 witness: the invariants evaluated on a concrete two-paragraph
document with the newline-deleting stripper. -/
theorem c3_witness :
    (∀ s, '\n' ∉ dropNl s)
    ∧ (List.Chain' (· < ·)
          ((extract_text_from_markdown dropNl "utilize it\n\nagain".data).2.map Prod.snd)
      ∧ (extract_text_from_markdown dropNl "utilize it\n\nagain".data).2.map Prod.fst
          = List.range (extract_text_from_markdown dropNl "utilize it\n\nagain".data).2.length
      ∧ (extract_text_from_markdown dropNl "utilize it\n\nagain".data).2.length
          = ((splitNl (extract_text_from_markdown dropNl "utilize it\n\nagain".data).1).filter
              (fun l => !l.isEmpty)).length) := by
  have hf : ∀ s, '\n' ∉ dropNl s := by
    intro s
    simp [dropNl]
  exact ⟨hf, c3_extraction_index_invariants dropNl "utilize it\n\nagain".data hf⟩

/-- C6: both aggregation entry points concatenate style-first and sort with
a stable sort — the output is sorted by the respective key (line number for
`combine_results`, the `(file, line)` pair for `combine_suggestions`), and
the records carrying any fixed key value appear in the output exactly in
their input order (style before grammar).  In particular a style suggestion
on line 5 merged with a grammar suggestion on line 3 comes out as
[line 3 grammar, line 5 style] in both entry points. -/
theorem c6_combine_stable_sort :
    (∀ style grammar : List Suggestion,
        List.Chain' (fun a b => a.line ≤ b.line) (combine_results style grammar)
      ∧ ∀ k : Nat,
          (combine_results style grammar).filter (fun s => s.line == k)
            = (style.map normStyleSugg ++ grammar.map normGrammarSugg).filter
                (fun s => s.line == k))
    ∧ (∀ style grammar : List Suggestion,
        List.Chain' (fun a b => fileLineLt b a = false)
          (combine_suggestions style grammar)
      ∧ ∀ (fk : Str) (lk : Nat),
          (combine_suggestions style grammar).filter
              (fun s => s.file == fk && s.line == lk)
            = (style ++ grammar).filter (fun s => s.file == fk && s.line == lk))
    ∧ combine_suggestions
        [⟨"f.md".data, 5, "o5".data, "s5".data, "Style: a".data⟩]
        [⟨"f.md".data, 3, "o3".data, "s3".data, "Grammar: b".data⟩]
      = [⟨"f.md".data, 3, "o3".data, "s3".data, "Grammar: b".data⟩,
         ⟨"f.md".data, 5, "o5".data, "s5".data, "Style: a".data⟩]
    ∧ combine_results
        [⟨"f.md".data, 5, "o5".data, "s5".data, "Style: a".data⟩]
        [⟨"f.md".data, 3, "o3".data, "s3".data, "Grammar: b".data⟩]
      = [⟨"f.md".data, 3, "o3".data, "s3".data, "Grammar: b".data⟩,
         ⟨"f.md".data, 5, "o5".data, "s5".data, "Style: a".data⟩] := by
  refine ⟨?_, ?_, by decide, by decide⟩
  · intro style grammar
    constructor
    · have hch := sortS_chain lineLt lineLt_asymm
        (style.map normStyleSugg ++ grammar.map normGrammarSugg)
      refine hch.imp ?_
      intro a b h
      simp [lineLt] at h
      omega
    · intro k
      apply sortS_filter
      intro x y hx hy
      simp only [beq_iff_eq] at hx hy
      simp [lineLt, hx, hy]
  · intro style grammar
    constructor
    · exact sortS_chain fileLineLt fileLineLt_asymm (style ++ grammar)
    · intro fk lk
      apply sortS_filter
      intro x y hx hy
      simp only [Bool.and_eq_true, beq_iff_eq] at hx hy
      simp [fileLineLt, hx.1, hx.2, hy.1, hy.2, strLt_irrefl]

/-- C8: the `combine_results.py` entry point exits with status 0 iff the
combined collection is non-empty and the output write succeeded, or both
input files are absent.  (A run whose output write fails while suggestions
exist makes `combine_results` return 0, so the process exits 1.) -/
theorem c8_exit_status (st gr : LoadResult) (writeOk : Bool) :
    combine_results_exit st gr writeOk = 0
      ↔ ((0 < (combine_results (rawLoad st) (rawLoad gr)).length ∧ writeOk = true)
          ∨ (st = LoadResult.missing ∧ gr = LoadResult.missing)) := by
  rw [combine_results_exit, combine_results_run]
  by_cases hs : st = LoadResult.missing <;>
    by_cases hg : gr = LoadResult.missing <;>
      cases writeOk <;>
        rcases Nat.eq_zero_or_pos
            (combine_results (rawLoad st) (rawLoad gr)).length with hn | hn <;>
          simp [hs, hg, hn] <;> simp [List.length_pos]

/-- Characterisation of an emitted grammar suggestion: `processGrammarMatch`
returns `some s` exactly by resolving the extracted-text line through the
map, checking the guard, and building the record with the global
replacement. -/
theorem processGrammarMatch_some (lines : List Str) (text : Str)
    (lineMap : List (Nat × Nat)) (file_path : Str) (m : GrammarMatch)
    (s : Suggestion)
    (h : processGrammarMatch lines text lineMap file_path m = some s) :
    ∃ md, lineMap.lookup (countNl (text.take m.offset)) = some md
      ∧ s = ⟨file_path, md + 1, lines.getD md [],
          pyReplace (errorText m) (suggestedText m) (lines.getD md []),
          "Grammar: ".data ++ m.message⟩
      ∧ (suggestedText m).isEmpty = false
      ∧ inStr (errorText m) (lines.getD md []) = true := by
  simp only [processGrammarMatch] at h
  cases hlk : lineMap.lookup (countNl (text.take m.offset)) with
  | none => rw [hlk] at h; simp at h
  | some md =>
    rw [hlk] at h
    simp only at h
    split at h
    case isTrue hcond =>
      simp only [Option.some.injEq] at h
      simp only [Bool.and_eq_true, Bool.not_eq_true'] at hcond
      exact ⟨md, rfl, h.symm, hcond.1, hcond.2⟩
    case isFalse => simp at h

/-- C4 counterexample: a service response whose first replacement equals
the context-derived error text makes `check_grammar` emit a suggestion with
`original = suggested` — a no-op edit, refuting the claim that no emitted
suggestion record ever has the two fields equal. -/
theorem c4_counterexample :
    ((check_grammar (fun t => t) "Hello world".data "file.md".data
        [⟨0, 5, "msg".data, ⟨"Hello".data, 0, 5⟩, ["Hello".data]⟩]).map
      (fun s => s.original == s.suggested)) = [true] := by
  decide

/-- C4 (amended): every style suggestion satisfies `original ≠ suggested`
(the source checks this before appending); a grammar suggestion satisfies
it provided the service's first replacement value differs from the
context-derived error text — `check_grammar` performs no such check, so a
response whose first replacement equals the error text produces a no-op
record. -/
theorem c4_no_noop_suggestions :
    (∀ (content file_path : Str) (s : StyleSuggestion),
        s ∈ check_style content file_path → s.original ≠ s.suggested)
    ∧ (∀ (f : Str → Str) (content file_path : Str) (ms : List GrammarMatch)
        (s : Suggestion),
        (∀ m ∈ ms, errorText m ≠ suggestedText m) →
        s ∈ check_grammar f content file_path ms → s.original ≠ s.suggested) := by
  constructor
  · intro content file_path s hs
    simp only [check_style, List.mem_flatMap, List.mem_filterMap] at hs
    obtain ⟨i, _, rule, _, hrule⟩ := hs
    split at hrule
    case isTrue hcond =>
      simp only [Option.some.injEq] at hrule
      simp only [Bool.and_eq_true, Bool.not_eq_true'] at hcond
      have hne : styleRuleApply rule ((splitNl content).getD i [])
          ≠ (splitNl content).getD i [] := beq_eq_false_iff_ne.mp hcond.2
      rw [← hrule]
      intro he
      exact hne he.symm
    case isFalse => simp at hrule
  · intro f content file_path ms s hms hs
    simp only [check_grammar] at hs
    split at hs
    · simp at hs
    · simp only [List.mem_filterMap] at hs
      obtain ⟨m, hm, hpm⟩ := hs
      obtain ⟨md, _, rfl, _, hin⟩ :=
        processGrammarMatch_some _ _ _ _ _ _ hpm
      simp only []
      intro he
      exact pyReplace_ne (errorText m) (suggestedText m) _ (hms m hm) hin he.symm

/-- C4 witness: the amended statement applied to a concrete style
suggestion and a concrete grammar suggestion whose replacement differs
from the error text. -/
theorem c4_witness :
    (("utilize x".data : Str) ≠ "use x".data)
    ∧ (("Helo x".data : Str) ≠ "Hello x".data) := by
  constructor
  · exact c4_no_noop_suggestions.1 "utilize x".data "f.md".data
      ⟨"f.md".data, 1, "utilize x".data, "use x".data,
        "Use 'use' instead of 'utilize' for simplicity.".data, "utilize x".data⟩
      (by decide)
  · exact c4_no_noop_suggestions.2 (fun t => t) "Helo x".data "f.md".data
      [⟨0, 4, "m".data, ⟨"Helo x".data, 0, 4⟩, ["Hello".data]⟩]
      ⟨"f.md".data, 1, "Helo x".data, "Hello x".data, "Grammar: m".data⟩
      (by decide) (by decide)

/-- C5: the per-match worker of `check_grammar` emits a suggestion only
when the context-derived error text occurs verbatim in the resolved
original line (which becomes the suggestion's `original` field) and the
match offers at least one replacement; a match failing either condition
yields `none` — no suggestion and no error. -/
theorem c5_grammar_emit_conditions (lines : List Str) (text : Str)
    (lineMap : List (Nat × Nat)) (file_path : Str) (m : GrammarMatch)
    (s : Suggestion)
    (h : processGrammarMatch lines text lineMap file_path m = some s) :
    inStr (errorText m) s.original = true ∧ m.replacements ≠ [] := by
  obtain ⟨md, hlk, rfl, hsug, hin⟩ := processGrammarMatch_some _ _ _ _ _ _ h
  refine ⟨hin, ?_⟩
  intro hr
  rw [suggestedText, hr] at hsug
  simp at hsug

/-- C5 witness: a concrete match that passes both conditions and is
emitted. -/
theorem c5_witness :
    inStr (errorText ⟨0, 1, "m".data, ⟨"a b".data, 0, 1⟩, ["x".data]⟩)
        (⟨"f".data, 1, "a b".data, "x b".data, "Grammar: m".data⟩ : Suggestion).original
      = true
    ∧ (⟨0, 1, "m".data, ⟨"a b".data, 0, 1⟩, ["x".data]⟩ : GrammarMatch).replacements ≠ [] :=
  c5_grammar_emit_conditions ["a b".data] "a b".data [(0, 0)] "f".data
    ⟨0, 1, "m".data, ⟨"a b".data, 0, 1⟩, ["x".data]⟩
    ⟨"f".data, 1, "a b".data, "x b".data, "Grammar: m".data⟩
    (by decide)

/-- C9: every record emitted by `check_style` carries the extra
`file_content` field holding the entire source document (the `Suggestion`
type of the grammar checker has exactly the five interchange fields and no
such field). -/
theorem c9_style_file_content (content file_path : Str) (s : StyleSuggestion)
    (h : s ∈ check_style content file_path) : s.file_content = content := by
  simp only [check_style, List.mem_flatMap, List.mem_filterMap] at h
  obtain ⟨i, _, rule, _, hrule⟩ := h
  split at hrule
  case isTrue =>
    simp only [Option.some.injEq] at hrule
    rw [← hrule]
  case isFalse => simp at hrule

/-- C9 witness: the extra field on a concrete emitted style suggestion. -/
theorem c9_witness :
    (⟨"f.md".data, 1, "utilize it".data, "use it".data,
        "Use 'use' instead of 'utilize' for simplicity.".data,
        "utilize it".data⟩ : StyleSuggestion).file_content = "utilize it".data :=
  c9_style_file_content "utilize it".data "f.md".data _ (by decide)

/-- C10: a suggestion emitted by `check_grammar` has its `suggested` field
built by the global `str.replace` — every non-overlapping occurrence of the
error text in the resolved original line is replaced by the first
replacement value, not only the flagged one: the length of the suggested
line accounts for all `countOcc` occurrences. -/
theorem c10_replace_all_occurrences (f : Str → Str)
    (content file_path : Str) (m : GrammarMatch) (s : Suggestion)
    (h : s ∈ check_grammar f content file_path [m]) :
    s.suggested = pyReplace (errorText m) (suggestedText m) s.original
    ∧ (errorText m ≠ [] →
        s.suggested.length + countOcc (errorText m) s.original * (errorText m).length
          = s.original.length
            + countOcc (errorText m) s.original * (suggestedText m).length) := by
  simp only [check_grammar] at h
  split at h
  · simp at h
  · simp only [List.mem_filterMap, List.mem_singleton] at h
    obtain ⟨m', hm', hpm⟩ := h
    rw [show m' = m from by simpa using hm'] at hpm
    obtain ⟨md, hlk, rfl, hsug, hin⟩ := processGrammarMatch_some _ _ _ _ _ _ hpm
    refine ⟨rfl, ?_⟩
    intro hne
    have hae : (errorText m).isEmpty = false := by
      cases he : errorText m with
      | nil => exact absurd he hne
      | cons c cs => simp
    simp only [pyReplace, hae, Bool.false_eq_true, if_false]
    exact replaceGo_length (errorText m) (suggestedText m) hne _

/-- C10 witness: the error text `aa` occurs twice in the resolved line
`aa bb aa`; both occurrences are replaced by `cc` and the length equation
accounts for both. -/
theorem c10_witness :
    ((⟨"f.md".data, 1, "aa bb aa".data, "cc bb cc".data,
        "Grammar: m".data⟩ : Suggestion).suggested
      = pyReplace (errorText ⟨0, 2, "m".data, ⟨"aa bb aa".data, 0, 2⟩, ["cc".data]⟩)
          (suggestedText ⟨0, 2, "m".data, ⟨"aa bb aa".data, 0, 2⟩, ["cc".data]⟩)
          (⟨"f.md".data, 1, "aa bb aa".data, "cc bb cc".data,
            "Grammar: m".data⟩ : Suggestion).original)
    ∧ ((⟨"f.md".data, 1, "aa bb aa".data, "cc bb cc".data,
          "Grammar: m".data⟩ : Suggestion).suggested.length
          + countOcc (errorText ⟨0, 2, "m".data, ⟨"aa bb aa".data, 0, 2⟩, ["cc".data]⟩)
              "aa bb aa".data
            * (errorText ⟨0, 2, "m".data, ⟨"aa bb aa".data, 0, 2⟩, ["cc".data]⟩).length
        = ("aa bb aa".data : Str).length
          + countOcc (errorText ⟨0, 2, "m".data, ⟨"aa bb aa".data, 0, 2⟩, ["cc".data]⟩)
              "aa bb aa".data
            * (suggestedText ⟨0, 2, "m".data, ⟨"aa bb aa".data, 0, 2⟩, ["cc".data]⟩).length) :=
  ⟨(c10_replace_all_occurrences (fun t => t) "aa bb aa".data "f.md".data
      ⟨0, 2, "m".data, ⟨"aa bb aa".data, 0, 2⟩, ["cc".data]⟩
      ⟨"f.md".data, 1, "aa bb aa".data, "cc bb cc".data, "Grammar: m".data⟩
      (by decide)).1,
   (c10_replace_all_occurrences (fun t => t) "aa bb aa".data "f.md".data
      ⟨0, 2, "m".data, ⟨"aa bb aa".data, 0, 2⟩, ["cc".data]⟩
      ⟨"f.md".data, 1, "aa bb aa".data, "cc bb cc".data, "Grammar: m".data⟩
      (by decide)).2 (by decide)⟩
